import Mathlib

/-!
Verification of `usdQt/variantSets.py` (Variant Set and Variant Editing
Widget) against its natural-language specification.

The module is a Qt tree model / dialog over the external USD scene-graph
engine.  The embedding below translates the repository's own code
(`VariantItem`, `LazyVariantTree._fetchItemChildren`, `VariantModel`,
`VariantContextMenuBuilder`, `VariantEditorDialog.SelectVariant`) into pure
Lean functions.  The external collaborators (the USD engine, Qt, and the
sibling packages `usdlib.variants` / `treemodel.itemtree` that are not part
of the sources here) are modelled as explicit data: an `Engine` record of
query/update functions stands for the USD scene graph, Qt dialogs become
plain input parameters, and Qt signals become counters on the model state.
-/

namespace VariantSets

/-- `usdlib.variants.PrimVariant` — a namedtuple `(setName, variantName)`
naming one variant selection of one variant set. -/
structure PrimVariant where
  setName : String
  variantName : String
deriving DecidableEq

/-- One element of an `Sdf.Path`: a prim child component or a variant
selection component `{setName=variantName}`. -/
inductive PathElem where
  | prim (name : String)
  | variantSel (setName variantName : String)
deriving DecidableEq

/-- `Sdf.Path`, modelled as its list of components. -/
structure SdfPath where
  elems : List PathElem
deriving DecidableEq

/-- `Sdf.Path.GetParentPath`: drop the last path component. -/
def SdfPath.GetParentPath (p : SdfPath) : SdfPath :=
  ⟨p.elems.dropLast⟩

/-- `Sdf.Path.AppendVariantSelection`: append a `{setName=variantName}`
component. -/
def SdfPath.AppendVariantSelection (p : SdfPath) (setName variantName : String) :
    SdfPath :=
  ⟨p.elems ++ [PathElem.variantSel setName variantName]⟩

/-- The chain of variant selections appearing in a path, in order. -/
def pathVariantSelections : List PathElem → List PrimVariant
  | [] => []
  | PathElem.prim _ :: rest => pathVariantSelections rest
  | PathElem.variantSel s v :: rest => ⟨s, v⟩ :: pathVariantSelections rest

/-- Modelled from the spec: `usdlib.variants.variantSelectionKey` is not under
`src/` (the spec records only that the editor holds pass-through references
"keyed by path", i.e. identified by the chain of variant selections that the
path carries).  It is modelled as the canonical string of the chain of
`setName=variantName` selections handed to it. -/
def variantSelectionKey (variants : List PrimVariant) : String :=
  String.intercalate "|" (variants.map fun v => v.setName ++ "=" ++ v.variantName)

/-- The key a path determines: the canonical string of the path's variant
selections. -/
def pathKey (p : SdfPath) : String :=
  variantSelectionKey (pathVariantSelections p.elems)

/-- `Usd.Prim`, reduced to what the widget observes of it: Python truthiness
(`if not self.prim`). -/
structure UsdPrim where
  valid : Bool
deriving DecidableEq

/-- The external USD scene-graph engine, as observed and mutated by the
widget.  Queries are functions keyed by variant-set name; the
`getPrimVariants` query takes the list of parent variants that
`varlib.SessionVariantContext` has temporarily selected (the context manager
plus `varlib.getPrimVariants(prim, includePath=True)` of the absent
`usdlib.variants` module are modelled together as this one query).
Authoring calls (`AppendVariantSet`, `SetReferences` under a variant
context) are recorded in explicit fields. -/
structure Engine where
  /-- `varlib.getPrimVariants` under `varlib.SessionVariantContext(prim, ctx)`:
  the `(path, PrimVariant)` pairs enumerated at the level the context makes
  visible. -/
  getPrimVariants : List PrimVariant → List (SdfPath × PrimVariant)
  /-- `prim.GetVariantSet(setName).GetVariantNames()`. -/
  variantSetNames : String → List String
  /-- `prim.GetVariantSet(setName).GetVariantSelection()`. -/
  variantSelection : String → String
  /-- variant sets authored via `GetVariantSets().AppendVariantSet(name)`
  under a variant context (top-level context is `[]`). -/
  authoredVariantSets : List (List PrimVariant × String)
  /-- references authored via `GetReferences().SetReferences([...])` under a
  variant context, keyed by that context. -/
  authoredRefs : List (List PrimVariant × List String)

/-- `variantSet.AppendVariant(name)`: the set's name list grows by `name`. -/
def Engine.AppendVariant (eng : Engine) (setName name : String) : Engine :=
  { eng with variantSetNames := fun s =>
      if s = setName then eng.variantSetNames s ++ [name]
      else eng.variantSetNames s }

/-- `variantSet.SetVariantSelection(name)`. -/
def Engine.SetVariantSelection (eng : Engine) (setName name : String) : Engine :=
  { eng with variantSelection := fun s =>
      if s = setName then name else eng.variantSelection s }

/-- `prim.GetVariantSets().AppendVariantSet(name)` authored under the given
variant context. -/
def Engine.AppendVariantSetUnder (eng : Engine) (ctx : List PrimVariant)
    (name : String) : Engine :=
  { eng with authoredVariantSets := eng.authoredVariantSets ++ [(ctx, name)] }

/-- `prim.GetReferences().SetReferences(refs)` authored under the given
variant context: replaces that context's reference list. -/
def Engine.SetReferencesUnder (eng : Engine) (ctx : List PrimVariant)
    (refs : List String) : Engine :=
  { eng with authoredRefs :=
      (eng.authoredRefs.filter fun e => e.1 ≠ ctx) ++ [(ctx, refs)] }

/-- `VariantItem.__init__`: the tree item built for one `PrimVariant` of a
prim.  The Python object stores a reference to the `Usd.VariantSet` object;
here that pass-through reference is its name key (`variantSetName`) together
with the prim, and engine queries on it go through `Engine`. -/
structure VariantItem where
  /-- `TreeItem.key`, set to `varlib.variantSelectionKey(parentVariants + [primVariant])`. -/
  key : String
  /-- the `Usd.VariantSet` reference, keyed by its set name. -/
  variantSetName : String
  /-- `variantSet.GetPrim()`. -/
  prim : UsdPrim
  path : SdfPath
  variant : PrimVariant
  parentVariants : List PrimVariant
deriving DecidableEq

/-- Constructor matching `VariantItem.__init__(variantSet, path,
parentVariants, primVariant)`. -/
def VariantItem.make (variantSetName : String) (prim : UsdPrim) (path : SdfPath)
    (parentVariants : List PrimVariant) (primVariant : PrimVariant) : VariantItem :=
  { key := variantSelectionKey (parentVariants ++ [primVariant])
    variantSetName := variantSetName
    prim := prim
    path := path
    variant := primVariant
    parentVariants := parentVariants }

/-- `VariantItem.selected`: the engine's current selection for the item's
variant set equals the item's variant name. -/
def VariantItem.selected (it : VariantItem) (eng : Engine) : Bool :=
  eng.variantSelection it.variantSetName == it.variant.variantName

/-- `VariantItem.variants`: `parentVariants + [variant]`. -/
def VariantItem.variants (it : VariantItem) : List PrimVariant :=
  it.parentVariants ++ [it.variant]

/-- `VariantItem.name`: `'{}={}'.format(*self.variant)`. -/
def VariantItem.name (it : VariantItem) : String :=
  it.variant.setName ++ "=" ++ it.variant.variantName

/-- A tree node as seen through a model index: either a plain `TreeItem`
(the tree root) or a `VariantItem`. -/
inductive Item where
  | root
  | variant (v : VariantItem)
deriving DecidableEq

/-- `isinstance(item, VariantItem)`. -/
def Item.isVariant : Item → Bool
  | .variant _ => true
  | .root => false

/-- `TreeItem.key` of a node (the root's key is fixed by `treemodel`). -/
def Item.key : Item → String
  | .root => "__ROOT__"
  | .variant v => v.key

/-- Outcome of a Python call: an uncaught exception, `None`, or a list of
items.  `_fetchItemChildren` returns `None` for an invalid prim, and
`list.remove` raises `ValueError` when the element is absent. -/
inductive FetchResult where
  | error
  | pynone
  | items (l : List VariantItem)
deriving DecidableEq

/-- Lines 100-125 of `_fetchItemChildren`: the loop body reached for the
first `primVariant` not in `parentVariants` — build the item for the
currently selected variant, then one item per remaining variant name
(plus a clear item `''` when a variant is selected).  `none` models the
`ValueError` from `names.remove(primVariant.variantName)` when the selected
name is not in `GetVariantNames()`.  `altItem` is the body of the inner
`for altVariant in names` loop: the item for one alternative variant name,
at path `parentPath.AppendVariantSelection(setName, altVariant)`. -/
def altItem (prim : UsdPrim) (parentVariants : List PrimVariant)
    (path : SdfPath) (setName : String) (alt : String) : VariantItem :=
  VariantItem.make setName prim
    (path.GetParentPath.AppendVariantSelection setName alt)
    parentVariants ⟨setName, alt⟩

def buildVariantItems (eng : Engine) (prim : UsdPrim)
    (parentVariants : List PrimVariant) (path : SdfPath) (pv : PrimVariant) :
    Option (List VariantItem) :=
  let variantItem := VariantItem.make pv.setName prim path parentVariants pv
  let names0 := eng.variantSetNames pv.setName
  if pv.variantName = "" then
    some (variantItem ::
      names0.map (altItem prim parentVariants path pv.setName))
  else if pv.variantName ∈ names0 then
    some (variantItem ::
      ((names0.erase pv.variantName) ++ [""]).map
        (altItem prim parentVariants path pv.setName))
  else none

/-- The `for path, primVariant in varlib.getPrimVariants(...)` loop of
`_fetchItemChildren`: skip variants already in `parentVariants`, return the
items built for the first remaining one (`return variantItems` breaks the
loop), and fall through to `return []` when the loop exhausts. -/
def fetchLoop (eng : Engine) (prim : UsdPrim) (parentVariants : List PrimVariant) :
    List (SdfPath × PrimVariant) → FetchResult
  | [] => .items []
  | (path, pv) :: rest =>
      if pv ∈ parentVariants then fetchLoop eng prim parentVariants rest
      else
        match buildVariantItems eng prim parentVariants path pv with
        | some l => .items l
        | none => .error

/-- `LazyVariantTree._fetchItemChildren(parent)`. -/
def fetchItemChildren (eng : Engine) (prim : UsdPrim) (parent : Item) :
    FetchResult :=
  if prim.valid = false then .pynone
  else
    match parent with
    | .variant p =>
        if p.variant.variantName = "" then .items []
        else
          let parentVariants := p.parentVariants ++ [p.variant]
          fetchLoop eng prim parentVariants (eng.getPrimVariants parentVariants)
    | .root => fetchLoop eng prim [] (eng.getPrimVariants [])

/-- The `parentVariants` context `_fetchItemChildren` derives from the parent
node: empty for the root, `parent.parentVariants + [parent.variant]` for a
`VariantItem`. -/
def parentCtx : Item → List PrimVariant
  | Item.root => []
  | Item.variant p => p.parentVariants ++ [p.variant]

/-- The first `(path, primVariant)` pair of the enumeration that is not
skipped by the loop's `if primVariant in parentVariants: continue`. -/
def firstNewVariant (ctx : List PrimVariant) :
    List (SdfPath × PrimVariant) → Option (SdfPath × PrimVariant)
  | [] => none
  | (path, pv) :: rest =>
      if pv ∈ ctx then firstNewVariant ctx rest else some (path, pv)

/-- `LazyVariantTree(prim)`.  Modelled from the spec for the part inherited
from the absent `treemodel.itemtree.LazyItemTree`: per the spec, the tree
"defers loading child variants until a parent node is expanded", so the
inherited machinery is modelled as a cache of already-fetched child lists,
keyed by the parent item's key, empty at construction. -/
structure LazyVariantTree where
  prim : UsdPrim
  childCache : List (String × List Item)
deriving DecidableEq

/-- `LazyVariantTree.__init__(prim)`: store the prim; no children fetched. -/
def LazyVariantTree.new (prim : UsdPrim) : LazyVariantTree :=
  { prim := prim, childCache := [] }

/-- Modelled from the spec: `LazyItemTree`'s lazy child lookup (absent
`treemodel` package).  A cache hit returns the stored children untouched;
a miss calls `_fetchItemChildren` (an empty list standing in for its `None`
and error outcomes) and caches the result. -/
def LazyVariantTree.childrenOf (t : LazyVariantTree) (eng : Engine)
    (parent : Item) : LazyVariantTree × List Item :=
  match t.childCache.lookup parent.key with
  | some cs => (t, cs)
  | none =>
      let cs :=
        match fetchItemChildren eng t.prim parent with
        | .items l => l.map Item.variant
        | _ => []
      ({ t with childCache := t.childCache ++ [(parent.key, cs)] }, cs)

/-- The mutable state of `VariantModel`: the prim selection `_prims`, the
`itemTree` field, and counters standing for the Qt signals the model emits
(`beginResetModel`/`endResetModel` and `dataChanged`). -/
structure ModelState where
  prims : List UsdPrim
  itemTree : LazyVariantTree
  resetEmits : Nat
  dataChangedEmits : Nat
deriving DecidableEq

/-- `VariantModel.Reset`: emits a model reset, and replaces `itemTree` with
a fresh `LazyVariantTree` only when exactly one prim is selected. -/
def ModelState.Reset (m : ModelState) : ModelState :=
  { m with
    resetEmits := m.resetEmits + 1
    itemTree :=
      match m.prims with
      | [p] => LazyVariantTree.new p
      | _ => m.itemTree }

/-- `VariantModel.prim`: the selected prim when the selection is a single
prim, `None` otherwise. -/
def ModelState.prim (m : ModelState) : Option UsdPrim :=
  match m.prims with
  | [p] => some p
  | _ => none

/-- The combined state the context-menu handlers and the dialog act on: the
external engine plus the model. -/
structure EditorState where
  engine : Engine
  model : ModelState

/-- The handler a menu action is wired to (`triggered.connect(...)`). -/
inductive MenuHandler where
  | addVariant
  | addNestedVariantSet
  | addReference
  | addVariantSet
deriving DecidableEq

/-- `VariantContextMenuBuilder.Build(menu, selections)`: a menu is its list
of `(label, handler)` actions, and `menu.addAction` appends. -/
def Build (menu : List (String × MenuHandler)) (selections : List VariantItem) :
    List (String × MenuHandler) :=
  match selections with
  | [selection] =>
      menu ++
        [("Add \"" ++ selection.variant.setName ++ "\" Variant",
          MenuHandler.addVariant),
         ("Add Nested Variant Set Under \"" ++ selection.name ++ "\"",
          MenuHandler.addNestedVariantSet),
         ("Add Reference Under \"" ++ selection.name ++ "\"",
          MenuHandler.addReference)]
  | [] => menu ++ [("Add Top Level Variant Set", MenuHandler.addVariantSet)]
  | _ => menu

/-- `VariantContextMenuBuilder.AddVariant(selectedItem)`; `name` is what
`QInputDialog.getText` returned.  An empty name returns at once; otherwise
`variantSet.AppendVariant(name)` then `model.Reset()`. -/
def AddVariant (selectedItem : VariantItem) (name : String) (st : EditorState) :
    EditorState :=
  if name = "" then st
  else
    { engine := st.engine.AppendVariant selectedItem.variantSetName name
      model := st.model.Reset }

/-- `VariantContextMenuBuilder.AddNestedVariantSet(selectedItem)`; `name` is
the `_GetVariantSetName()` dialog result.  An empty name returns at once;
otherwise a variant set named `name` is authored under the selected item's
variant context, then `model.Reset()`. -/
def AddNestedVariantSet (selectedItem : VariantItem) (name : String)
    (st : EditorState) : EditorState :=
  if name = "" then st
  else
    { engine := st.engine.AppendVariantSetUnder selectedItem.variants name
      model := st.model.Reset }

/-- `VariantContextMenuBuilder.AddVariantSet()`; `name` is the
`_GetVariantSetName()` dialog result.  An empty name returns at once;
otherwise the set is authored on `model.prim` — `none` models the Python
`AttributeError` when the model has no single selected prim. -/
def AddVariantSet (name : String) (st : EditorState) : Option EditorState :=
  if name = "" then some st
  else
    match st.model.prim with
    | none => none
    | some _ =>
        some { engine := st.engine.AppendVariantSetUnder [] name
               model := st.model.Reset }

/-- `VariantContextMenuBuilder.AddReference(item)`; `path` is what
`UsdQtUtilities.exec_('getReferencePath', ...)` returned.  An empty path
returns at once; otherwise the references under the item's variant context
are set to `[Sdf.Reference(path)]`. -/
def AddReference (item : VariantItem) (path : String) (st : EditorState) :
    EditorState :=
  if path = "" then st
  else
    { engine := st.engine.SetReferencesUnder item.variants [path]
      model := st.model }

/-- `VariantEditorDialog.SelectVariant(selectedIndex)`: an invalid/absent
index falls back to the view's first selected index (returning if there is
none); a non-`VariantItem` item returns; otherwise the item's variant set's
selection is set to the item's variant name and `dataChanged` is emitted. -/
def SelectVariant (selectedIndex : Option Item) (viewSelectedIndexes : List Item)
    (st : EditorState) : EditorState :=
  match (match selectedIndex with
         | some i => some i
         | none => viewSelectedIndexes.head?) with
  | none => st
  | some Item.root => st
  | some (Item.variant v) =>
      { engine := st.engine.SetVariantSelection v.variantSetName
          v.variant.variantName
        model := { st.model with
          dataChangedEmits := st.model.dataChangedEmits + 1 } }

/-- `QtGui.QFont` as the widget uses it. -/
structure QFont where
  italic : Bool
  bold : Bool
deriving DecidableEq

/-- The `while isinstance(parent, VariantItem)` walk of
`VariantModel.data`'s font branch, over the chain of ancestors from the
item's parent upward: a deselected `VariantItem` ancestor returns the font
as is; reaching a non-`VariantItem` sets bold. -/
def boldWalk (eng : Engine) (font : QFont) : List Item → QFont
  | Item.variant p :: rest =>
      if p.selected eng = false then font else boldWalk eng font rest
  | _ => { font with bold := true }

/-- The `QtCore.Qt.FontRole` branch of `VariantModel.data`:
`hasSpecAt` is `self._stage.GetEditTarget().GetLayer().GetPrimAtPath`
truthiness, `ancestors` the item's ancestor chain from its parent upward.
Returns `none` where Python returns `None` (non-`VariantItem` items). -/
def dataFontRole (eng : Engine) (hasSpecAt : SdfPath → Bool) (item : Item)
    (ancestors : List Item) : Option QFont :=
  match item with
  | Item.root => none
  | Item.variant v =>
      let font : QFont := { italic := !(hasSpecAt v.path), bold := false }
      if v.selected eng then some (boldWalk eng font ancestors)
      else some font

/-! Concrete scene-graph fixtures used to exercise the theorems below. -/

/-- A prim path `/Model`. -/
def pModel : SdfPath := ⟨[PathElem.prim "Model"]⟩

/-- The variant path `/Model{setA=a1}`. -/
def pA : SdfPath := ⟨[PathElem.prim "Model", PathElem.variantSel "setA" "a1"]⟩

/-- The variant path `/Model{setB=b1}`. -/
def pB : SdfPath := ⟨[PathElem.prim "Model", PathElem.variantSel "setB" "b1"]⟩

/-- `(setA, a1)`. -/
def pvA : PrimVariant := ⟨"setA", "a1"⟩

/-- `(setB, b1)`. -/
def pvB : PrimVariant := ⟨"setB", "b1"⟩

/-- An engine whose prim carries two variant sets at the top level —
`setA` (names `a1`, `a2`, selection `a1`) and `setB` (names `b1`, `b2`,
selection `b1`) — the situation the module docstring's first TODO item
declares unsupported. -/
def engTwoSets : Engine :=
  { getPrimVariants := fun _ => [(pA, pvA), (pB, pvB)]
    variantSetNames := fun s =>
      if s = "setA" then ["a1", "a2"] else ["b1", "b2"]
    variantSelection := fun s => if s = "setA" then "a1" else "b1"
    authoredVariantSets := []
    authoredRefs := [] }

/-- A well-formed engine with a single top-level variant set `setA`
(names `a1`, `a2`, current selection `a1`) and nothing nested. -/
def engW : Engine :=
  { getPrimVariants := fun ctx => if ctx = [] then [(pA, pvA)] else []
    variantSetNames := fun s => if s = "setA" then ["a1", "a2"] else []
    variantSelection := fun s => if s = "setA" then "a1" else ""
    authoredVariantSets := []
    authoredRefs := [] }

/-- The item `engW`'s fetch builds for the selected variant `setA=a1`. -/
def itemW : VariantItem := VariantItem.make "setA" ⟨true⟩ pA [] pvA

/-- The clear item `setA=` built by `engW`'s fetch. -/
def clearItemW : VariantItem := altItem ⟨true⟩ [] pA "setA" ""

/-- The child list `engW`'s fetch produces for the root. -/
def childrenW : List VariantItem :=
  [itemW, altItem ⟨true⟩ [] pA "setA" "a2", clearItemW]

/-- A model state with two selected prims. -/
def mW : ModelState :=
  { prims := [⟨true⟩, ⟨true⟩]
    itemTree := LazyVariantTree.new ⟨true⟩
    resetEmits := 0
    dataChangedEmits := 0 }

/-- An editor state over `engW` and `mW`. -/
def stW : EditorState := ⟨engW, mW⟩

/-- Checks, over `engTwoSets`, that expanding the root yields a non-empty
child list in which no item belongs to variant set `setB`. -/
def fetchMissesSetB : Bool :=
  match fetchItemChildren engTwoSets ⟨true⟩ Item.root with
  | FetchResult.items l =>
      !l.isEmpty && l.all fun it => it.variant.setName != "setB"
  | _ => false

/-! Helper lemmas shared by the claim theorems. -/

theorem pathVariantSelections_append (a b : List PathElem) :
    pathVariantSelections (a ++ b) =
      pathVariantSelections a ++ pathVariantSelections b := by
  induction a with
  | nil => simp [pathVariantSelections]
  | cons x xs ih => cases x <;> simp [pathVariantSelections, ih]

theorem altItem_variant (prim : UsdPrim) (ctx : List PrimVariant)
    (path : SdfPath) (sn alt : String) :
    (altItem prim ctx path sn alt).variant = ⟨sn, alt⟩ := rfl

/-- Case analysis of `buildVariantItems`: either the current selection is
empty and every variant name yields an alternative item, or the selection is
one of the names and the alternatives are the remaining names plus the clear
item; any other situation raises. -/
theorem buildVariantItems_cases (eng : Engine) (prim : UsdPrim)
    (ctx : List PrimVariant) (path : SdfPath) (pv : PrimVariant)
    (l : List VariantItem)
    (h : buildVariantItems eng prim ctx path pv = some l) :
    (pv.variantName = "" ∧
      l = VariantItem.make pv.setName prim path ctx pv ::
        (eng.variantSetNames pv.setName).map (altItem prim ctx path pv.setName)) ∨
    (pv.variantName ≠ "" ∧ pv.variantName ∈ eng.variantSetNames pv.setName ∧
      l = VariantItem.make pv.setName prim path ctx pv ::
        (((eng.variantSetNames pv.setName).erase pv.variantName) ++ [""]).map
          (altItem prim ctx path pv.setName)) := by
  unfold buildVariantItems at h
  by_cases h0 : pv.variantName = ""
  · left
    refine ⟨h0, ?_⟩
    simp only [h0, if_pos rfl] at h
    exact (Option.some.inj h).symm
  · right
    by_cases h1 : pv.variantName ∈ eng.variantSetNames pv.setName
    · refine ⟨h0, h1, ?_⟩
      simp only [h0, h1, if_neg h0, if_pos h1, ite_true, ite_false] at h
      exact (Option.some.inj h).symm
    · simp [h0, h1] at h

/-- A loop run that yields `FetchResult.items l` with `l` non-empty did so by
building the items of the first enumerated variant not skipped as a parent
variant. -/
theorem fetchLoop_items (eng : Engine) (prim : UsdPrim)
    (ctx : List PrimVariant) (pvs : List (SdfPath × PrimVariant))
    (l : List VariantItem) (hne : l ≠ [])
    (h : fetchLoop eng prim ctx pvs = FetchResult.items l) :
    ∃ path pv, firstNewVariant ctx pvs = some (path, pv) ∧
      buildVariantItems eng prim ctx path pv = some l := by
  induction pvs with
  | nil =>
      exact absurd (FetchResult.items.inj h).symm hne
  | cons x rest ih =>
      obtain ⟨path, pv⟩ := x
      by_cases hmem : pv ∈ ctx
      · simp only [fetchLoop, if_pos hmem] at h
        obtain ⟨p', v', h1, h2⟩ := ih h
        exact ⟨p', v', by simp [firstNewVariant, hmem, h1], h2⟩
      · simp only [fetchLoop, if_neg hmem] at h
        cases hb : buildVariantItems eng prim ctx path pv with
        | none => rw [hb] at h; exact absurd h (by simp)
        | some l' =>
            rw [hb] at h
            simp only [] at h
            have : l' = l := FetchResult.items.inj h
            subst this
            exact ⟨path, pv, by simp [firstNewVariant, hmem], hb⟩

/-- `firstNewVariant` returns an element of the enumeration, not skipped. -/
theorem firstNewVariant_mem (ctx : List PrimVariant)
    (pvs : List (SdfPath × PrimVariant)) (path : SdfPath) (pv : PrimVariant)
    (h : firstNewVariant ctx pvs = some (path, pv)) :
    (path, pv) ∈ pvs ∧ pv ∉ ctx := by
  induction pvs with
  | nil => exact absurd h (by simp [firstNewVariant])
  | cons x rest ih =>
      obtain ⟨p', v'⟩ := x
      by_cases hmem : v' ∈ ctx
      · simp only [firstNewVariant, if_pos hmem] at h
        obtain ⟨h1, h2⟩ := ih h
        exact ⟨List.mem_cons_of_mem _ h1, h2⟩
      · simp only [firstNewVariant, if_neg hmem] at h
        obtain ⟨h1, h2⟩ := Prod.mk.inj (Option.some.inj h)
        subst h1; subst h2
        exact ⟨List.mem_cons_self _ _, hmem⟩

/-- A non-empty `FetchResult.items` outcome of `_fetchItemChildren` comes
from `buildVariantItems` on the first non-parent variant enumerated under
the parent's variant context. -/
theorem fetchItemChildren_items (eng : Engine) (prim : UsdPrim) (parent : Item)
    (l : List VariantItem) (hne : l ≠ [])
    (h : fetchItemChildren eng prim parent = FetchResult.items l) :
    ∃ path pv,
      firstNewVariant (parentCtx parent)
        (eng.getPrimVariants (parentCtx parent)) = some (path, pv) ∧
      buildVariantItems eng prim (parentCtx parent) path pv = some l := by
  unfold fetchItemChildren at h
  by_cases hv : prim.valid = false
  · rw [if_pos hv] at h; exact absurd h (by simp)
  · rw [if_neg hv] at h
    cases parent with
    | root => exact fetchLoop_items eng prim [] _ l hne h
    | variant p =>
        by_cases h0 : p.variant.variantName = ""
        · simp only [h0, if_pos rfl] at h
          exact absurd (FetchResult.items.inj h).symm hne
        · simp only [if_neg h0] at h
          exact fetchLoop_items eng prim _ _ l hne h

theorem map_variantName_altItems (prim : UsdPrim) (ctx : List PrimVariant)
    (path : SdfPath) (sn : String) (names : List String) :
    (names.map (altItem prim ctx path sn)).map
      (fun it => it.variant.variantName) = names := by
  rw [List.map_map]
  exact List.map_id names

/-- All items built by `buildVariantItems` belong to the enumerated variant
set. -/
theorem bvItems_setName (eng : Engine) (prim : UsdPrim)
    (ctx : List PrimVariant) (path : SdfPath) (pv : PrimVariant)
    (l : List VariantItem)
    (hbv : buildVariantItems eng prim ctx path pv = some l) :
    ∀ it ∈ l, it.variant.setName = pv.setName := by
  rcases buildVariantItems_cases eng prim ctx path pv l hbv with
    ⟨h0, hl⟩ | ⟨h0, hmem, hl⟩ <;> subst hl <;> intro it hit <;>
    rcases List.mem_cons.mp hit with h | h
  · rw [h]; rfl
  · obtain ⟨n, _, hn⟩ := List.mem_map.mp h
    rw [← hn]; rfl
  · rw [h]; rfl
  · obtain ⟨n, _, hn⟩ := List.mem_map.mp h
    rw [← hn]; rfl

/-- The variant names carried by the items `buildVariantItems` builds: the
current selection first, then — when a variant is selected — the remaining
names plus the clear item, otherwise all names. -/
theorem bvItems_vnames (eng : Engine) (prim : UsdPrim)
    (ctx : List PrimVariant) (path : SdfPath) (pv : PrimVariant)
    (l : List VariantItem)
    (hbv : buildVariantItems eng prim ctx path pv = some l) :
    l.map (fun it => it.variant.variantName) =
      pv.variantName ::
        (if pv.variantName = "" then eng.variantSetNames pv.setName
         else (eng.variantSetNames pv.setName).erase pv.variantName ++ [""]) := by
  rcases buildVariantItems_cases eng prim ctx path pv l hbv with
    ⟨h0, hl⟩ | ⟨h0, hmem, hl⟩ <;> subst hl
  · rw [if_pos h0, List.map_cons, map_variantName_altItems]
    rfl
  · rw [if_neg h0, List.map_cons, map_variantName_altItems]
    rfl

/-- Counting facts for the name list `"" :: names` (no selection). -/
theorem shape_empty_sel (names : List String)
    (hnodup : names.Nodup) (hnoEmpty : "" ∉ names) :
    ("" :: names).length = names.length + 1 ∧
    (∀ n ∈ names, ("" :: names).count n = 1) ∧
    ("" :: names).count "" = 1 := by
  refine ⟨by simp, ?_, ?_⟩
  · intro n hn
    have hne : n ≠ "" := fun h => hnoEmpty (h ▸ hn)
    simp [List.count_cons, hne, List.count_eq_one_of_mem hnodup hn]
  · simp [List.count_cons, List.count_eq_zero_of_not_mem hnoEmpty]

/-- Counting facts for the name list `sel :: (names.erase sel ++ [""])`
(a selected variant). -/
theorem shape_mem_sel (names : List String) (sel : String)
    (hnodup : names.Nodup) (hnoEmpty : "" ∉ names)
    (hmem : sel ∈ names) (hselne : sel ≠ "") :
    (sel :: (names.erase sel ++ [""])).length = names.length + 1 ∧
    (∀ n ∈ names, (sel :: (names.erase sel ++ [""])).count n = 1) ∧
    (sel :: (names.erase sel ++ [""])).count "" = 1 := by
  refine ⟨?_, ?_, ?_⟩
  · have h1 := List.length_erase_add_one hmem
    simp only [List.length_cons, List.length_append, List.length_nil]
    omega
  · intro n hn
    have hne : n ≠ "" := fun h => hnoEmpty (h ▸ hn)
    by_cases hns : n = sel
    · subst hns
      have h1 : (names.erase n).count n = 0 := by
        rw [List.count_erase_self, List.count_eq_one_of_mem hnodup hn]
      simp [List.count_cons, List.count_append, h1, hne]
    · have h1 : (names.erase sel).count n = names.count n :=
        List.count_erase_of_ne hns names
      simp [List.count_cons, List.count_append, h1,
        List.count_eq_one_of_mem hnodup hn, hns, hne]
  · have h1 : (names.erase sel).count "" = 0 :=
      List.count_eq_zero_of_not_mem (fun h => hnoEmpty (List.mem_of_mem_erase h))
    have h2 : ("" : String) ≠ sel := fun h => hselne h.symm
    simp [List.count_cons, List.count_append, h1, h2]

/-! The claim theorems. -/

/-- C3: `VariantItem.selected` returns `True` exactly when the engine's
current variant selection for the item's variant set equals the item's
variant name. -/
theorem variantItem_selected_iff_engine_selection (eng : Engine)
    (it : VariantItem) :
    it.selected eng = true ↔
      eng.variantSelection it.variantSetName = it.variant.variantName := by
  simp [VariantItem.selected]

/-- C2: every add handler started from the context menu returns immediately
when the input dialog yields an empty name (empty path for `AddReference`):
no variant, variant set, or reference is authored and the model is not
reset — the editor state is unchanged on the empty-input branch. -/
theorem emptyInput_cancels_action (selectedItem : VariantItem)
    (name refPath : String) (st : EditorState)
    (hname : name = "") (hpath : refPath = "") :
    AddVariant selectedItem name st = st ∧
    AddNestedVariantSet selectedItem name st = st ∧
    AddVariantSet name st = some st ∧
    AddReference selectedItem refPath st = st := by
  subst hname; subst hpath
  exact ⟨rfl, rfl, rfl, rfl⟩

/-- Witness for C2: the four handlers at a concrete editor state and empty
input. -/
theorem emptyInput_cancels_action_witness :
    AddVariant itemW "" stW = stW ∧
    AddNestedVariantSet itemW "" stW = stW ∧
    AddVariantSet "" stW = some stW ∧
    AddReference itemW "" stW = stW :=
  emptyInput_cancels_action itemW "" "" stW rfl rfl

/-- C4: double-click semantics of `VariantEditorDialog.SelectVariant`: on an
index holding a `VariantItem` it sets that item's variant set's selection to
the item's variant name and emits `dataChanged`; on an index holding a
non-`VariantItem` it returns with the state unchanged. -/
theorem selectVariant_double_click_semantics (st : EditorState)
    (idxs : List Item) (v : VariantItem) :
    ((SelectVariant (some (Item.variant v)) idxs st).engine.variantSelection
        v.variantSetName = v.variant.variantName ∧
      (SelectVariant (some (Item.variant v)) idxs st).model.dataChangedEmits =
        st.model.dataChangedEmits + 1) ∧
    SelectVariant (some Item.root) idxs st = st := by
  refine ⟨⟨?_, rfl⟩, rfl⟩
  simp [SelectVariant, Engine.SetVariantSelection]

/-- C6: the context menu built for exactly one selected item offers exactly
three actions — add a variant to the selected item's set, add a nested
variant set under it, add a reference under it — and the menu built for no
selection offers exactly one action, adding a top-level variant set. -/
theorem contextMenu_actions_contract (selection : VariantItem) :
    Build [] [selection] =
      [("Add \"" ++ selection.variant.setName ++ "\" Variant",
        MenuHandler.addVariant),
       ("Add Nested Variant Set Under \"" ++ selection.name ++ "\"",
        MenuHandler.addNestedVariantSet),
       ("Add Reference Under \"" ++ selection.name ++ "\"",
        MenuHandler.addReference)] ∧
    Build [] [] = [("Add Top Level Variant Set", MenuHandler.addVariantSet)] :=
  ⟨rfl, rfl⟩

/-- C9: `VariantModel.Reset` replaces `itemTree` with a fresh lazy tree
exactly when one prim is selected; with zero or several selected prims the
`itemTree` field is left as it was. -/
theorem reset_itemTree_frame_condition (m : ModelState) :
    (∀ p, m.prims = [p] → m.Reset.itemTree = LazyVariantTree.new p) ∧
    (m.prims.length ≠ 1 → m.Reset.itemTree = m.itemTree) := by
  constructor
  · intro p hp
    simp [ModelState.Reset, hp]
  · intro h
    cases hp : m.prims with
    | nil => simp [ModelState.Reset, hp]
    | cons a t =>
        cases t with
        | nil => exact absurd (by simp [hp]) h
        | cons b t2 => simp [ModelState.Reset, hp]

/-- Witness for C9: with two prims selected, a reset keeps the tree. -/
theorem reset_itemTree_frame_condition_witness :
    mW.Reset.itemTree = mW.itemTree :=
  (reset_itemTree_frame_condition mW).2 (by decide)

/-- C5: the lazy fetch defers and bounds its work: a fresh lazy tree has
computed no children, an invalid/absent prim makes `_fetchItemChildren`
return `None`, a parent `VariantItem` carrying a cleared (empty) variant
name gets an empty child list, and the children handed out for a fresh
tree's node are exactly what `_fetchItemChildren` computes at fetch time. -/
theorem lazyFetch_boundary_branches :
    (∀ prim : UsdPrim, (LazyVariantTree.new prim).childCache = []) ∧
    (∀ (eng : Engine) (prim : UsdPrim) (parent : Item), prim.valid = false →
        fetchItemChildren eng prim parent = FetchResult.pynone) ∧
    (∀ (eng : Engine) (prim : UsdPrim) (p : VariantItem), prim.valid = true →
        p.variant.variantName = "" →
        fetchItemChildren eng prim (Item.variant p) = FetchResult.items []) ∧
    (∀ (eng : Engine) (prim : UsdPrim) (parent : Item),
        ((LazyVariantTree.new prim).childrenOf eng parent).2 =
          match fetchItemChildren eng prim parent with
          | FetchResult.items l => l.map Item.variant
          | _ => []) := by
  refine ⟨fun _ => rfl, ?_, ?_, ?_⟩
  · intro eng prim parent h
    simp [fetchItemChildren, h]
  · intro eng prim p h1 h2
    simp [fetchItemChildren, h1, h2]
  · intro eng prim parent
    simp [LazyVariantTree.childrenOf, LazyVariantTree.new]

/-- Witness for C5: an invalid prim yields `None`, a cleared parent yields
an empty child list. -/
theorem lazyFetch_boundary_branches_witness :
    fetchItemChildren engW ⟨false⟩ Item.root = FetchResult.pynone ∧
    fetchItemChildren engW ⟨true⟩ (Item.variant clearItemW) =
      FetchResult.items [] :=
  ⟨lazyFetch_boundary_branches.2.1 engW ⟨false⟩ Item.root rfl,
   lazyFetch_boundary_branches.2.2.1 engW ⟨true⟩ clearItemW rfl rfl⟩

/-- The ancestor walk of the font branch sets bold exactly when every
`VariantItem` in the leading chain is selected. -/
theorem boldWalk_append (eng : Engine) (font : QFont) (vs : List VariantItem)
    (rest : List Item) (hrest : ∀ i ∈ rest, i.isVariant = false) :
    boldWalk eng font (vs.map Item.variant ++ rest) =
      if ∀ p ∈ vs, p.selected eng = true then { font with bold := true }
      else font := by
  induction vs with
  | nil =>
      simp only [List.map_nil, List.nil_append]
      rw [if_pos (by intro p hp; exact absurd hp (List.not_mem_nil p))]
      cases rest with
      | nil => rfl
      | cons i rest2 =>
          cases i with
          | root => rfl
          | variant p =>
              exact absurd (hrest _ (List.mem_cons_self _ _))
                (by simp [Item.isVariant])
  | cons p vs ih =>
      simp only [List.map_cons, List.cons_append, boldWalk, List.append_eq]
      by_cases hp : p.selected eng = false
      · rw [if_pos hp, if_neg]
        intro hall
        exact absurd (hall p (List.mem_cons_self _ _)) (by simp [hp])
      · have hps : p.selected eng = true := by
          cases hsel : p.selected eng
          · exact absurd hsel hp
          · rfl
        rw [if_neg hp, ih]
        by_cases hall : ∀ q ∈ vs, q.selected eng = true
        · rw [if_pos hall, if_pos]
          intro q hq
          rcases List.mem_cons.mp hq with h | h
          · rw [h]; exact hps
          · exact hall q h
        · rw [if_neg hall, if_neg]
          intro hA
          exact hall fun q hq => hA q (List.mem_cons_of_mem _ hq)

/-- C10: the font the model returns for a `VariantItem` is bold exactly when
the item is selected and every `VariantItem` among its ancestors is
selected; a broken selection chain comes back non-bold. -/
theorem fontRole_bold_iff_chain_selected (eng : Engine)
    (hasSpecAt : SdfPath → Bool) (v : VariantItem) (vs : List VariantItem)
    (rest : List Item) (hrest : ∀ i ∈ rest, i.isVariant = false) :
    ∃ f, dataFontRole eng hasSpecAt (Item.variant v)
          (vs.map Item.variant ++ rest) = some f ∧
      (f.bold = true ↔
        (v.selected eng = true ∧ ∀ p ∈ vs, p.selected eng = true)) := by
  cases hv : v.selected eng with
  | false =>
      refine ⟨{ italic := !(hasSpecAt v.path), bold := false }, ?_, ?_, ?_⟩
      · simp [dataFontRole, hv]
      · intro hb
        exact absurd hb Bool.false_ne_true
      · intro hb
        exact absurd hb.1 Bool.false_ne_true
  | true =>
      have hD : dataFontRole eng hasSpecAt (Item.variant v)
          (vs.map Item.variant ++ rest) =
          some (if ∀ p ∈ vs, p.selected eng = true
                then { italic := !(hasSpecAt v.path), bold := true }
                else { italic := !(hasSpecAt v.path), bold := false }) := by
        simp only [dataFontRole, hv, if_true]
        rw [boldWalk_append eng _ vs rest hrest]
      by_cases hall : ∀ p ∈ vs, p.selected eng = true
      · exact ⟨_, by rw [hD, if_pos hall],
          ⟨fun _ => ⟨rfl, hall⟩, fun _ => rfl⟩⟩
      · exact ⟨_, by rw [hD, if_neg hall],
          ⟨fun hb => absurd hb Bool.false_ne_true,
           fun hb => absurd hb.2 hall⟩⟩

/-- Counterexample for C1: on a prim with two variant sets at the top level
(`setA` and `setB`, both enumerated by the engine), expanding the root
produces a non-empty child list containing no item of `setB`: not every
variant set present at the level appears — only the first one does, as the
module docstring's TODO records. -/
theorem fetchChildren_misses_second_variantSet :
    ((pB, pvB) ∈ engTwoSets.getPrimVariants []) ∧ fetchMissesSetB = true := by
  constructor
  · simp [engTwoSets]
  · rfl

/-- C1 (amended): when a parent node's children are fetched, the enumeration
is lazy and covers exactly the *first* variant set at that level that is not
already in the parent chain: every item fetched belongs to that set, and
every one of that set's selections appears as a child item.  (The claim's
"every variant set present at that level" fails: later variant sets at the
same level are not enumerated — see the counterexample.) -/
theorem fetchChildren_enumerates_first_variantSet (eng : Engine)
    (prim : UsdPrim) (parent : Item) (l : List VariantItem)
    (hfetch : fetchItemChildren eng prim parent = FetchResult.items l)
    (hne : l ≠ []) :
    ∃ path pv,
      firstNewVariant (parentCtx parent)
        (eng.getPrimVariants (parentCtx parent)) = some (path, pv) ∧
      (∀ it ∈ l, it.variant.setName = pv.setName) ∧
      (∀ n ∈ eng.variantSetNames pv.setName,
        ∃ it ∈ l, it.variant.variantName = n) := by
  obtain ⟨path, pv, hfirst, hbv⟩ :=
    fetchItemChildren_items eng prim parent l hne hfetch
  refine ⟨path, pv, hfirst, ?_⟩
  rcases buildVariantItems_cases eng prim (parentCtx parent) path pv l hbv with
    ⟨h0, hl⟩ | ⟨h0, hmem, hl⟩
  · subst hl
    constructor
    · intro it hit
      rcases List.mem_cons.mp hit with h | h
      · rw [h]; rfl
      · obtain ⟨n, _, hn⟩ := List.mem_map.mp h
        rw [← hn]; rfl
    · intro n hn
      exact ⟨altItem prim (parentCtx parent) path pv.setName n,
        List.mem_cons_of_mem _ (List.mem_map_of_mem _ hn), rfl⟩
  · subst hl
    constructor
    · intro it hit
      rcases List.mem_cons.mp hit with h | h
      · rw [h]; rfl
      · obtain ⟨n, _, hn⟩ := List.mem_map.mp h
        rw [← hn]; rfl
    · intro n hn
      by_cases hsel : n = pv.variantName
      · exact ⟨VariantItem.make pv.setName prim path (parentCtx parent) pv,
          List.mem_cons_self _ _, hsel.symm⟩
      · refine ⟨altItem prim (parentCtx parent) path pv.setName n,
          List.mem_cons_of_mem _ (List.mem_map_of_mem _ ?_), rfl⟩
        exact List.mem_append_left _ ((List.mem_erase_of_ne hsel).mpr hn)

/-- Witness for C1 (amended): the concrete engine `engW` fetched at the
root, whose children are `childrenW`. -/
theorem fetchChildren_enumerates_first_variantSet_witness :
    ∃ path pv,
      firstNewVariant [] (engW.getPrimVariants []) = some (path, pv) ∧
      (∀ it ∈ childrenW, it.variant.setName = pv.setName) ∧
      (∀ n ∈ engW.variantSetNames pv.setName,
        ∃ it ∈ childrenW, it.variant.variantName = n) :=
  fetchChildren_enumerates_first_variantSet engW ⟨true⟩ Item.root childrenW
    (by decide) (by decide)

/-- C7: every `VariantItem` the fetch constructs is stored under a key
derived from its Sdf path — the canonical string of the path's variant
selections — given the engine's well-formedness: each enumerated variant's
path is its parent path extended by that variant's selection, and the parent
path's selections are exactly the context's. -/
theorem variantItem_key_derived_from_path (eng : Engine) (prim : UsdPrim)
    (parent : Item) (l : List VariantItem)
    (hpaths : ∀ ctx path pv, (path, pv) ∈ eng.getPrimVariants ctx →
      ∃ r, path.elems = r ++ [PathElem.variantSel pv.setName pv.variantName] ∧
        pathVariantSelections r = ctx)
    (hfetch : fetchItemChildren eng prim parent = FetchResult.items l) :
    ∀ it ∈ l, it.key = pathKey it.path := by
  by_cases hne : l = []
  · subst hne
    intro it hit
    exact absurd hit (List.not_mem_nil it)
  · obtain ⟨path, pv, hfirst, hbv⟩ :=
      fetchItemChildren_items eng prim parent l hne hfetch
    obtain ⟨hmem, -⟩ := firstNewVariant_mem _ _ _ _ hfirst
    obtain ⟨r, hre, hrsel⟩ := hpaths _ _ _ hmem
    have hmain : (VariantItem.make pv.setName prim path (parentCtx parent) pv).key
        = pathKey path := by
      show variantSelectionKey (parentCtx parent ++ [pv]) = pathKey path
      unfold pathKey
      rw [hre, pathVariantSelections_append, hrsel]
      rfl
    have halt : ∀ alt,
        (altItem prim (parentCtx parent) path pv.setName alt).key =
          pathKey (altItem prim (parentCtx parent) path pv.setName alt).path := by
      intro alt
      show variantSelectionKey (parentCtx parent ++ [⟨pv.setName, alt⟩]) =
        pathKey (path.GetParentPath.AppendVariantSelection pv.setName alt)
      simp only [pathKey, SdfPath.GetParentPath, SdfPath.AppendVariantSelection]
      rw [hre, List.dropLast_concat, pathVariantSelections_append, hrsel]
      rfl
    have hcover : ∀ it ∈ l, it.key = pathKey it.path := by
      rcases buildVariantItems_cases eng prim (parentCtx parent) path pv l hbv with
        ⟨h0, hl⟩ | ⟨h0, hmem', hl⟩ <;> subst hl <;> intro it hit <;>
        rcases List.mem_cons.mp hit with h | h
      · rw [h]; exact hmain
      · obtain ⟨n, _, hn⟩ := List.mem_map.mp h
        rw [← hn]; exact halt n
      · rw [h]; exact hmain
      · obtain ⟨n, _, hn⟩ := List.mem_map.mp h
        rw [← hn]; exact halt n
    exact hcover

/-- Witness for C7: the selected item of `engW`'s root fetch has the key its
path determines. -/
theorem variantItem_key_derived_from_path_witness :
    itemW.key = pathKey itemW.path := by
  have hpaths : ∀ ctx path pv, (path, pv) ∈ engW.getPrimVariants ctx →
      ∃ r, path.elems = r ++ [PathElem.variantSel pv.setName pv.variantName] ∧
        pathVariantSelections r = ctx := by
    intro ctx path pv h
    by_cases hc : ctx = []
    · subst hc
      simp only [engW, if_pos rfl, List.mem_singleton, Prod.mk.injEq,
        ite_true] at h
      obtain ⟨h1, h2⟩ := h
      subst h1; subst h2
      exact ⟨[PathElem.prim "Model"], rfl, rfl⟩
    · simp [engW, hc] at h
  exact variantItem_key_derived_from_path engW ⟨true⟩ Item.root childrenW hpaths
    (by decide) itemW (by decide)

/-- C8: shape of a non-empty fetched child list for the enumerated variant
set (whose variant names USD keeps distinct and non-empty): all items belong
to that set, there are exactly `len(GetVariantNames()) + 1` of them — each
variant name exactly once plus exactly one empty-named clear item — and the
first one carries the engine's current selection for the set. -/
theorem fetchChildren_list_shape (eng : Engine) (prim : UsdPrim)
    (parent : Item) (path : SdfPath) (pv : PrimVariant) (l : List VariantItem)
    (hnodup : (eng.variantSetNames pv.setName).Nodup)
    (hnoEmpty : "" ∉ eng.variantSetNames pv.setName)
    (hcoh : pv.variantName = eng.variantSelection pv.setName)
    (hfirst : firstNewVariant (parentCtx parent)
      (eng.getPrimVariants (parentCtx parent)) = some (path, pv))
    (hfetch : fetchItemChildren eng prim parent = FetchResult.items l)
    (hne : l ≠ []) :
    (∀ it ∈ l, it.variant.setName = pv.setName) ∧
    l.length = (eng.variantSetNames pv.setName).length + 1 ∧
    (∀ n ∈ eng.variantSetNames pv.setName,
      (l.map fun it => it.variant.variantName).count n = 1) ∧
    ((l.map fun it => it.variant.variantName).count "" = 1) ∧
    (l.map fun it => it.variant.variantName).head? =
      some (eng.variantSelection pv.setName) := by
  obtain ⟨path', pv', hfirst', hbv⟩ :=
    fetchItemChildren_items eng prim parent l hne hfetch
  rw [hfirst] at hfirst'
  obtain ⟨hp1, hp2⟩ := Prod.mk.inj (Option.some.inj hfirst')
  subst hp1; subst hp2
  have hset := bvItems_setName eng prim (parentCtx parent) path pv l hbv
  have hvn := bvItems_vnames eng prim (parentCtx parent) path pv l hbv
  have hlen : l.length = (l.map fun it => it.variant.variantName).length :=
    (List.length_map l _).symm
  rcases buildVariantItems_cases eng prim (parentCtx parent) path pv l hbv with
    ⟨h0, -⟩ | ⟨h0, hmem, -⟩
  · rw [if_pos h0, h0] at hvn
    have hshape := shape_empty_sel (eng.variantSetNames pv.setName)
      hnodup hnoEmpty
    refine ⟨hset, ?_, ?_, ?_, ?_⟩
    · rw [hlen, hvn]
      exact hshape.1
    · intro n hn
      rw [hvn]
      exact hshape.2.1 n hn
    · rw [hvn]
      exact hshape.2.2
    · rw [hvn, ← hcoh, h0]
      rfl
  · rw [if_neg h0] at hvn
    have hshape := shape_mem_sel (eng.variantSetNames pv.setName)
      pv.variantName hnodup hnoEmpty hmem h0
    refine ⟨hset, ?_, ?_, ?_, ?_⟩
    · rw [hlen, hvn]
      exact hshape.1
    · intro n hn
      rw [hvn]
      exact hshape.2.1 n hn
    · rw [hvn]
      exact hshape.2.2
    · rw [hvn, ← hcoh]
      rfl

/-- Witness for C8: the shape facts evaluated on `engW`'s root fetch. -/
theorem fetchChildren_list_shape_witness :
    childrenW.length = (engW.variantSetNames "setA").length + 1 ∧
    (childrenW.map fun it => it.variant.variantName).count "" = 1 ∧
    (childrenW.map fun it => it.variant.variantName).head? =
      some (engW.variantSelection "setA") := by
  have h := fetchChildren_list_shape engW ⟨true⟩ Item.root pA pvA childrenW
    (by decide) (by decide) (by decide) (by decide) (by decide) (by decide)
  exact ⟨h.2.1, h.2.2.2.1, h.2.2.2.2⟩

/-- Witness for C10: a selected item under a selected ancestor chain is
returned bold. -/
theorem fontRole_bold_iff_chain_selected_witness :
    ∃ f, dataFontRole engW (fun _ => true) (Item.variant itemW)
          ([itemW].map Item.variant ++ [Item.root]) = some f ∧
      f.bold = true := by
  obtain ⟨f, hf, hiff⟩ := fontRole_bold_iff_chain_selected engW (fun _ => true)
    itemW [itemW] [Item.root] (by decide)
  exact ⟨f, hf, hiff.mpr ⟨by decide, by decide⟩⟩

end VariantSets
